import Mathlib

/-
Verification development for the signal-driven trading backtester
(src/bakctest_engine.py, class TradingBacktester).

The simulator state (cash, positions dict, trade list) is embedded as a
structure over rationals; the positions dict is an association list with
python-dict update semantics (replace in place when the key exists, append
otherwise).  A price series row carries its index label (row.name in the
source, here the field key), the close price and the signal; the series as a
whole carries a name attribute (self.data.name in the source), which the sell
branch uses for its position lookup while trades are executed under the row
label.  Metrics that the source computes with real powers and square roots
(annualized return, volatility, Sharpe) are embedded over the reals; all
ledger arithmetic is rational and executable.
-/

namespace Backtest

/-- One row of the price series: index label (row.name), close price and
signal, mirroring the columns read by TradingBacktester.simulate. -/
structure PricePoint where
  key : String
  close : ℚ
  signal : Int
deriving DecidableEq

/-- Default row used only as a getD fallback. -/
def pp0 : PricePoint := ⟨"", 0, 0⟩

/-- A trade record as appended by TradingBacktester.execute: exactly the three
fields ticker, quantity, price of the python dict literal. -/
structure Trade where
  ticker : String
  quantity : ℚ
  price : ℚ
deriving DecidableEq

/-- Default trade used only as a getD fallback. -/
def tr0 : Trade := ⟨"", 0, 0⟩

/-- The mutable state of TradingBacktester: cash, positions dict, trade log. -/
structure SimState where
  cash : ℚ
  positions : List (String × ℚ)
  trades : List Trade
deriving DecidableEq

/-- positions.get(k, 0): first binding of k, defaulting to 0. -/
def getPos (ps : List (String × ℚ)) (k : String) : ℚ :=
  match ps with
  | [] => 0
  | e :: rest => if e.1 = k then e.2 else getPos rest k

/-- positions[k] = v with python-dict semantics: replace the existing binding
in place, or append a fresh one at the end. -/
def setPos (ps : List (String × ℚ)) (k : String) (v : ℚ) : List (String × ℚ) :=
  match ps with
  | [] => [(k, v)]
  | e :: rest => if e.1 = k then (k, v) :: rest else e :: setPos rest k v

/-- TradingBacktester.execute: cash -= qty*price, positions[ticker] =
positions.get(ticker, 0) + qty, append the trade record. -/
def execute (st : SimState) (ticker : String) (qty price : ℚ) : SimState :=
  { cash := st.cash - qty * price
    positions := setPos st.positions ticker (getPos st.positions ticker + qty)
    trades := st.trades ++ [⟨ticker, qty, price⟩] }

/-- One iteration of the loop in TradingBacktester.simulate: buy sizes the
order from current cash; the sell branch looks the held quantity up under the
series-level name but executes under the row label. -/
def simStep (rf : ℚ) (name : String) (st : SimState) (p : PricePoint) : SimState :=
  if p.signal = 1 then
    execute st p.key (st.cash * rf / p.close) p.close
  else if p.signal = -1 then
    if 0 < getPos st.positions name then
      execute st p.key (-(getPos st.positions name)) p.close
    else st
  else st

/-- Fresh TradingBacktester state: configured cash, empty dict, empty log. -/
def initState (cash0 : ℚ) : SimState := ⟨cash0, [], []⟩

/-- TradingBacktester.simulate: a single left fold of simStep over the series. -/
def simulate (rf : ℚ) (name : String) (cash0 : ℚ) (pts : List PricePoint) : SimState :=
  pts.foldl (simStep rf name) (initState cash0)

/-- TradingBacktester.portfolio_value: cash plus the sum of qty*price over all
entries of the positions dict, at one uniform price. -/
def portfolioValue (st : SimState) (price : ℚ) : ℚ :=
  st.cash + (st.positions.map (fun e => e.2 * price)).sum

/-- The valuation pass of TradingBacktester.returns: portfolio_value at the
close of every row, all with one fixed ledger state. -/
def valuations (st : SimState) (pts : List PricePoint) : List ℚ :=
  pts.map (fun p => portfolioValue st p.close)

/-- TradingBacktester.returns: np.diff(values) / values[:-1]. -/
def returnsOf (st : SimState) (pts : List PricePoint) : List ℚ :=
  List.zipWith (fun a b => (b - a) / a) (valuations st pts) (valuations st pts).tail

/-- returns() as called from performance_summary: the ledger used for every
valuation is the state after the full simulation pass. -/
def returnsPipeline (rf : ℚ) (name : String) (cash0 : ℚ) (pts : List PricePoint) : List ℚ :=
  returnsOf (simulate rf name cash0 pts) pts

/-- np.mean over rationals (empty list gives 0 via division by zero). -/
def mean (l : List ℚ) : ℚ := l.sum / l.length

/-- Population variance, matching np.std squared. -/
def variance (l : List ℚ) : ℚ :=
  ((l.map (fun x => (x - mean l) ^ 2)).sum) / l.length

/-- trade_returns: np.diff(prices)/prices[:-1] over consecutive trade-log
entries when more than one trade exists, else the literal [0]. -/
def tradeReturns (ts : List Trade) : List ℚ :=
  if 1 < ts.length then
    List.zipWith (fun a b => (b.price - a.price) / a.price) ts ts.tail
  else [0]

/-- trade_pnl: trade_returns * trade_qty[:-1] when more than one trade exists,
else the literal [0]; numpy elementwise product truncates to the returns. -/
def tradePnl (ts : List Trade) : List ℚ :=
  if 1 < ts.length then
    List.zipWith (fun r t => r * t.quantity) (tradeReturns ts) ts
  else [0]

/-- pnl = np.sum(trade_pnl). -/
def pnlOf (ts : List Trade) : ℚ := (tradePnl ts).sum

/-- avg_return = np.mean(trade_returns) if nonempty else 0. -/
def avgTradeReturn (ts : List Trade) : ℚ :=
  if 0 < (tradeReturns ts).length then mean (tradeReturns ts) else 0

/-- win_rate = np.sum(trade_pnl > 0) / len(trade_pnl) if nonempty else 0, with
the source fidelity that when fewer than 2 trades exist, trade_pnl is the plain
python list [0], and the comparison [0] > 0 raises TypeError (list versus int
in Python 3) before np.sum is called: that crash path is modelled as none. With
2 or more trades, trade_pnl is a numpy array and the comparison is elementwise. -/
def winRate (ts : List Trade) : Option ℚ :=
  if 1 < ts.length then
    if 0 < (tradePnl ts).length then
      some (((tradePnl ts).countP (fun x => decide (0 < x)) : ℚ) / ((tradePnl ts).length : ℚ))
    else some 0
  else none

/-- total_return = (final_val - initial_val) / initial_val with the first and
last closes of the series. -/
def totalReturn (st : SimState) (pts : List PricePoint) : ℚ :=
  (portfolioValue st ((pts.map PricePoint.close).getLastD 0) -
    portfolioValue st ((pts.map PricePoint.close).headD 0)) /
  portfolioValue st ((pts.map PricePoint.close).headD 0)

/-- annual_return = (1 + total_return) ** (252 / len(data)) - 1. -/
noncomputable def annualReturn (st : SimState) (pts : List PricePoint) : ℝ :=
  (1 + (totalReturn st pts : ℝ)) ^ ((252 : ℝ) / (pts.length : ℝ)) - 1

/-- volatility = np.std(returns) * np.sqrt(252). -/
noncomputable def volatility (st : SimState) (pts : List PricePoint) : ℝ :=
  Real.sqrt ((variance (returnsOf st pts) : ℝ)) * Real.sqrt 252

/-- sharpe = (annual_return - 0.02) / volatility if volatility > 0 else 0. -/
noncomputable def sharpe (st : SimState) (pts : List PricePoint) : ℝ :=
  if 0 < volatility st pts then
    (annualReturn st pts - 2 / 100) / volatility st pts
  else 0

/-- The record returned by TradingBacktester.performance_summary. -/
structure Summary where
  total_return : ℚ
  annual_return : ℝ
  volatility : ℝ
  sharpe : ℝ
  pnl : ℚ
  avg_trade_return : ℚ
  win_rate : ℚ

/-- All fields of the summary for a given ledger state and series, with the
win-rate value supplied by the caller (it is only defined when the win-rate
line did not fail). -/
noncomputable def mkSummary (st : SimState) (pts : List PricePoint) (w : ℚ) : Summary :=
  { total_return := totalReturn st pts
    annual_return := annualReturn st pts
    volatility := volatility st pts
    sharpe := sharpe st pts
    pnl := pnlOf st.trades
    avg_trade_return := avgTradeReturn st.trades
    win_rate := w }

/-- performance_summary: data.iloc[0] on an empty series raises IndexError,
modelled as none; on a nonempty series the function returns a summary only when
the win-rate line succeeds, which requires at least 2 trades — with fewer, the
comparison of the list [0] against 0 raises TypeError and nothing is returned. -/
noncomputable def performanceSummary (st : SimState) (pts : List PricePoint) : Option Summary :=
  if pts.isEmpty then none else (winRate st.trades).map (mkSummary st pts)

/-! Concrete inputs used by counterexamples and witnesses. -/

/-- Two-row series whose buy row is keyed by the series name and whose sell
row is keyed differently. -/
def c1cexRun : SimState :=
  simulate (1/2) "X" 1000 [⟨"X", 100, 1⟩, ⟨"Y", 110, -1⟩]

/-- Two-row series keyed uniformly by the series name. -/
def c1pts : List PricePoint := [⟨"T", 100, 1⟩, ⟨"T", 110, -1⟩]

/-- Scenario A series keyed by dates, with series name TICK. -/
def c2ptsDated : List PricePoint := [⟨"d1", 100, 1⟩, ⟨"d2", 110, 0⟩, ⟨"d3", 121, -1⟩]

/-- Simulation of Scenario A in the intended usage: date row keys. -/
def c2runDated : SimState := simulate (1/2) "TICK" 1000 c2ptsDated

/-- Scenario A series with every row keyed by the series name. -/
def c2ptsKeyed : List PricePoint := [⟨"TICK", 100, 1⟩, ⟨"TICK", 110, 0⟩, ⟨"TICK", 121, -1⟩]

/-- Full Scenario A run with uniform keys. -/
def c2run : SimState := simulate (1/2) "TICK" 1000 c2ptsKeyed

/-- Scenario A after day 1 only, with uniform keys. -/
def c2day1 : SimState := simulate (1/2) "TICK" 1000 (c2ptsKeyed.take 1)

/-- Two-row series for exercising the buy branch. -/
def c4pts : List PricePoint := [⟨"a", 100, 1⟩, ⟨"b", 110, 0⟩]

/-- Two-row series with one buy for exercising the return series. -/
def c5pts : List PricePoint := [⟨"a", 100, 1⟩, ⟨"b", 150, 0⟩]

/-- Three trades for exercising the trade-level metrics. -/
def c6ts : List Trade := [⟨"a", 5, 100⟩, ⟨"b", 3, 110⟩, ⟨"c", 2, 99⟩]

/-- A one-row series: the shortest input performance_summary accepts. -/
def c7pts : List PricePoint := [⟨"d", 100, 0⟩]

/-- Simulation of the one-row hold series at the default configuration. -/
def c7st : SimState := simulate (1/50) "T" 1000000 c7pts

/-- Three-row series with two buys (so the win-rate line succeeds) whose
valuations move, giving positive volatility. -/
def c8pts : List PricePoint := [⟨"a", 100, 1⟩, ⟨"b", 100, 1⟩, ⟨"c", 200, 0⟩]

/-- Simulation of the moving series. -/
def c8st : SimState := simulate (1/2) "T" 1000 c8pts

/-- Two-row series with two buys and constant closes, giving constant
valuations and zero volatility. -/
def c8zpts : List PricePoint := [⟨"a", 100, 1⟩, ⟨"b", 100, 1⟩]

/-- Simulation of the constant series. -/
def c8zst : SimState := simulate (1/2) "T" 1000 c8zpts

/-- A buy on a date-keyed row of a series named AAPL. -/
def c9run : SimState := simulate (1/2) "AAPL" 1000 [⟨"2020-01-01", 100, 1⟩]

/-- Buy, sell, buy on date-keyed rows of a series named T. -/
def c10pts : List PricePoint := [⟨"a", 100, 1⟩, ⟨"b", 110, -1⟩, ⟨"c", 121, 1⟩]

theorem getPos_setPos_self (ps : List (String × ℚ)) (k : String) (v : ℚ) :
    getPos (setPos ps k v) k = v := by
  induction ps with
  | nil => simp [getPos, setPos]
  | cons e rest ih =>
    by_cases h : e.1 = k
    · simp [getPos, setPos, h]
    · simp [getPos, setPos, h, ih]

theorem getPos_setPos_ne (ps : List (String × ℚ)) (k k2 : String) (v : ℚ)
    (h : k ≠ k2) : getPos (setPos ps k v) k2 = getPos ps k2 := by
  induction ps with
  | nil => simp [getPos, setPos, h]
  | cons e rest ih =>
    by_cases he : e.1 = k
    · simp [getPos, setPos, he, h]
    · simp only [setPos, if_neg he]
      by_cases he2 : e.1 = k2
      · simp [getPos, he2]
      · simp [getPos, he2, ih]

/-- C3: the execute operation updates the state exactly as
cash_after = cash_before - q*p, position_after = position_before + q (with an
implicit 0 for an absent entry), and appends exactly one record to the trade
log; it is a total operation with no failure condition on the cash balance. -/
theorem execute_conservation (st : SimState) (t : String) (q p : ℚ) :
    (execute st t q p).cash = st.cash - q * p ∧
    getPos (execute st t q p).positions t = getPos st.positions t + q ∧
    (execute st t q p).trades = st.trades ++ [⟨t, q, p⟩] := by
  refine ⟨rfl, ?_, rfl⟩
  simp [execute, getPos_setPos_self]

/-- C1 counterexample: with the buy row keyed by the series name X and the sell
row keyed Y, the sell branch fires on held = 5 > 0 but executes under Y, so the
position of the instrument X stays 5 (not 0) and a short of -5 opens under Y. -/
theorem sell_key_mismatch_cex :
    getPos c1cexRun.positions "X" = 5 ∧ getPos c1cexRun.positions "Y" = -5 := by
  simp [c1cexRun, simulate, initState, simStep, execute, getPos, setPos]
  norm_num

/-- C2 counterexample: for the Scenario A series (prices [100,110,121], signals
[+1,0,-1], cash 1000, risk fraction 1/2) keyed by dates with series name TICK,
day 3 executes no sell: cash stays 500, the log holds one trade, and the
position bought on day 1 remains 5. -/
theorem scenarioA_dated_cex :
    c2runDated.cash = 500 ∧ c2runDated.trades.length = 1 ∧
    getPos c2runDated.positions "d1" = 5 := by
  simp [c2runDated, c2ptsDated, simulate, initState, simStep, execute, getPos, setPos]
  norm_num

/-- C2 amended: when every row key equals the series name, Scenario A holds as
stated (day 1: buy 5 at 100, cash 500, position 5; day 3: sell 5 at 121, cash
1105, position 0; final portfolio value 1105); with date row keys the sell does
not execute, cash stays 500, yet the final portfolio value at 121 is still 1105. -/
theorem scenarioA_keyed :
    c2day1.cash = 500 ∧ getPos c2day1.positions "TICK" = 5 ∧
    c2day1.trades = [⟨"TICK", 5, 100⟩] ∧
    c2run.cash = 1105 ∧ getPos c2run.positions "TICK" = 0 ∧
    c2run.trades = [⟨"TICK", 5, 100⟩, ⟨"TICK", -5, 121⟩] ∧
    portfolioValue c2run 121 = 1105 ∧
    c2runDated.cash = 500 ∧ portfolioValue c2runDated 121 = 1105 := by
  simp [c2run, c2day1, c2runDated, c2ptsKeyed, c2ptsDated, simulate, initState,
    simStep, execute, getPos, setPos, portfolioValue]
  norm_num

theorem take_succ_getD {α : Type} (d : α) :
    ∀ (l : List α) (i : ℕ), i < l.length → l.take (i + 1) = l.take i ++ [l.getD i d] := by
  intro l
  induction l with
  | nil => intro i h; simp at h
  | cons a t ih =>
    intro i h
    cases i with
    | zero => simp
    | succ n =>
      have hn : n < t.length := by simpa using h
      simp [ih n hn]

theorem simulate_take_succ (rf : ℚ) (name : String) (cash0 : ℚ)
    (pts : List PricePoint) (i : ℕ) (h : i < pts.length) :
    simulate rf name cash0 (pts.take (i + 1)) =
      simStep rf name (simulate rf name cash0 (pts.take i)) (pts.getD i pp0) := by
  rw [simulate, simulate, take_succ_getD pp0 pts i h, List.foldl_append]
  rfl

/-- C4: at every point with signal +1, the simulation executes a buy of
quantity (current_cash * risk_fraction) / close_price at the close price of
that point, where current_cash is the cash after all prior steps of the same
pass; the execution is unconditional, with no solvency check. -/
theorem buy_uses_current_cash (rf : ℚ) (name : String) (cash0 : ℚ)
    (pts : List PricePoint) (i : ℕ) (h : i < pts.length)
    (hs : (pts.getD i pp0).signal = 1) :
    simulate rf name cash0 (pts.take (i + 1)) =
      execute (simulate rf name cash0 (pts.take i)) (pts.getD i pp0).key
        ((simulate rf name cash0 (pts.take i)).cash * rf / (pts.getD i pp0).close)
        (pts.getD i pp0).close := by
  rw [simulate_take_succ rf name cash0 pts i h, simStep, if_pos hs]

/-- C4 witness: the buy theorem applied at index 0 of a concrete series. -/
theorem buy_uses_current_cash_wit :
    simulate (1/2) "T" 1000 (c4pts.take 1) =
      execute (simulate (1/2) "T" 1000 (c4pts.take 0)) (c4pts.getD 0 pp0).key
        ((simulate (1/2) "T" 1000 (c4pts.take 0)).cash * (1/2) / (c4pts.getD 0 pp0).close)
        (c4pts.getD 0 pp0).close ∧
    (simulate (1/2) "T" 1000 (c4pts.take 1)).cash = 500 := by
  constructor
  · exact buy_uses_current_cash (1/2) "T" 1000 c4pts 0 (by norm_num [c4pts]) (by simp [c4pts])
  · simp [c4pts, simulate, initState, simStep, execute]
    norm_num

/-- C1 amended: at every point with signal -1, the held quantity is looked up
under the series-level name; if positive, a sell of the full looked-up quantity
executes at the close price, recorded under the row key, and when the row key
equals the series-level name this brings the position under the name to exactly
0; if the looked-up quantity is non-positive, the step changes neither cash nor
positions nor the trade log. -/
theorem sell_branch_spec (rf : ℚ) (name : String) (cash0 : ℚ)
    (pts : List PricePoint) (i : ℕ) (h : i < pts.length)
    (hs : (pts.getD i pp0).signal = -1) :
    (0 < getPos (simulate rf name cash0 (pts.take i)).positions name →
      simulate rf name cash0 (pts.take (i + 1)) =
        execute (simulate rf name cash0 (pts.take i)) (pts.getD i pp0).key
          (-(getPos (simulate rf name cash0 (pts.take i)).positions name))
          (pts.getD i pp0).close ∧
      ((pts.getD i pp0).key = name →
        getPos (simulate rf name cash0 (pts.take (i + 1))).positions name = 0)) ∧
    (getPos (simulate rf name cash0 (pts.take i)).positions name ≤ 0 →
      simulate rf name cash0 (pts.take (i + 1)) = simulate rf name cash0 (pts.take i)) := by
  have e1 : simStep rf name (simulate rf name cash0 (pts.take i)) (pts.getD i pp0) =
      if 0 < getPos (simulate rf name cash0 (pts.take i)).positions name then
        execute (simulate rf name cash0 (pts.take i)) (pts.getD i pp0).key
          (-(getPos (simulate rf name cash0 (pts.take i)).positions name))
          (pts.getD i pp0).close
      else simulate rf name cash0 (pts.take i) := by
    rw [simStep, hs]
    norm_num
  constructor
  · intro hpos
    constructor
    · rw [simulate_take_succ rf name cash0 pts i h, e1, if_pos hpos]
    · intro hk
      rw [simulate_take_succ rf name cash0 pts i h, e1, if_pos hpos, hk]
      simp [execute, getPos_setPos_self]
  · intro hle
    rw [simulate_take_succ rf name cash0 pts i h, e1, if_neg (not_lt.mpr hle)]

/-- C1 witness: the sell theorem applied at index 1 of a concrete series keyed
by the series name, closing the position to exactly 0. -/
theorem sell_branch_spec_wit :
    getPos (simulate (1/2) "T" 1000 (c1pts.take 2)).positions "T" = 0 := by
  have H := sell_branch_spec (1/2) "T" 1000 c1pts 1 (by norm_num [c1pts]) (by simp [c1pts])
  have hpos : 0 < getPos (simulate (1/2) "T" 1000 (c1pts.take 1)).positions "T" := by
    simp [c1pts, simulate, initState, simStep, execute, getPos, setPos]
  exact (H.1 hpos).2 (by simp [c1pts])

/-- C9 counterexample: a buy on a date-keyed row of the series named AAPL logs
the record with ticker field 2020-01-01 (the row label), quantity 5, price 100,
and no field of any logged record holds the instrument identifier AAPL; the
record also carries no sequence-index field beyond the row label itself. -/
theorem trade_record_missing_instrument_cex :
    c9run.trades = [⟨"2020-01-01", 5, 100⟩] ∧
    "AAPL" ∉ c9run.trades.map Trade.ticker := by
  have ht : c9run.trades = [⟨"2020-01-01", 5, 100⟩] := by
    simp [c9run, simulate, initState, simStep, execute]
    norm_num
  refine ⟨ht, ?_⟩
  rw [ht]
  simp

theorem simStep_trades_extend (rf : ℚ) (name : String) (st : SimState) (p : PricePoint) :
    ∃ a, (simStep rf name st p).trades = st.trades ++ a := by
  rw [simStep]
  by_cases h1 : p.signal = 1
  · rw [if_pos h1]; exact ⟨_, rfl⟩
  · rw [if_neg h1]
    by_cases h2 : p.signal = -1
    · rw [if_pos h2]
      by_cases h3 : 0 < getPos st.positions name
      · rw [if_pos h3]; exact ⟨_, rfl⟩
      · rw [if_neg h3]; exact ⟨[], (List.append_nil _).symm⟩
    · rw [if_neg h2]; exact ⟨[], (List.append_nil _).symm⟩

theorem foldl_trades_extend (rf : ℚ) (name : String) :
    ∀ (l : List PricePoint) (st : SimState),
      ∃ a, (List.foldl (simStep rf name) st l).trades = st.trades ++ a := by
  intro l
  induction l with
  | nil => intro st; exact ⟨[], (List.append_nil _).symm⟩
  | cons p t ih =>
    intro st
    obtain ⟨a, ha⟩ := simStep_trades_extend rf name st p
    obtain ⟨b, hb⟩ := ih (simStep rf name st p)
    exact ⟨a ++ b, by rw [List.foldl_cons, hb, ha, List.append_assoc]⟩

/-- C9 amended: every executed trade appends exactly the record made of the row
key (in the ticker field), the signed quantity and the execution price, and the
trade log is append-only: the log produced by any prefix of the pass persists
unchanged as an initial segment of the final log. -/
theorem trade_log_append_only (rf : ℚ) (name : String) (cash0 : ℚ)
    (pts : List PricePoint) (st : SimState) (k : String) (q p : ℚ) (i : ℕ) :
    (execute st k q p).trades = st.trades ++ [⟨k, q, p⟩] ∧
    ∃ rest, (simulate rf name cash0 pts).trades =
      (simulate rf name cash0 (pts.take i)).trades ++ rest := by
  refine ⟨rfl, ?_⟩
  obtain ⟨a, ha⟩ :=
    foldl_trades_extend rf name (pts.drop i) (simulate rf name cash0 (pts.take i))
  refine ⟨a, ?_⟩
  conv_lhs => rw [simulate, ← List.take_append_drop i pts, List.foldl_append]
  exact ha

theorem zipWith_getD {α β : Type} (f : α → β → ℚ) (da : α) (db : β) :
    ∀ (l1 : List α) (l2 : List β) (i : ℕ), i < l1.length → i < l2.length →
      (List.zipWith f l1 l2).getD i 0 = f (l1.getD i da) (l2.getD i db) := by
  intro l1
  induction l1 with
  | nil => intro l2 i h1 h2; simp at h1
  | cons a t ih =>
    intro l2 i h1 h2
    cases l2 with
    | nil => simp at h2
    | cons b u =>
      cases i with
      | zero => simp
      | succ n =>
        simp only [List.zipWith_cons_cons, List.getD_cons_succ]
        exact ih u n (by simpa using h1) (by simpa using h2)

theorem tail_getD {α : Type} (d : α) (l : List α) (i : ℕ) :
    l.tail.getD i d = l.getD (i + 1) d := by
  cases l <;> simp

theorem map_getD {α : Type} (g : α → ℚ) (d : α) :
    ∀ (l : List α) (i : ℕ), i < l.length → (l.map g).getD i 0 = g (l.getD i d) := by
  intro l
  induction l with
  | nil => intro i h; simp at h
  | cons a t ih =>
    intro i h
    cases i with
    | zero => simp
    | succ n =>
      simp only [List.map_cons, List.getD_cons_succ]
      exact ih n (by simpa using h)

theorem length_valuations (st : SimState) (pts : List PricePoint) :
    (valuations st pts).length = pts.length := by
  simp [valuations]

/-- C5: the return series values every point with the ledger state at the end
of the full simulation (final cash and positions applied uniformly to all
dates), the valuations are V i = portfolioValue at the close of point i, the
returns are R i = (V (i+1) - V i) / V i for i below length - 1, and a series of
fewer than 2 points yields the empty return series. -/
theorem returns_final_ledger_spec (rf : ℚ) (name : String) (cash0 : ℚ)
    (pts : List PricePoint) :
    (returnsPipeline rf name cash0 pts).length = pts.length - 1 ∧
    (∀ i : ℕ, i < pts.length →
      (valuations (simulate rf name cash0 pts) pts).getD i 0 =
        portfolioValue (simulate rf name cash0 pts) ((pts.map PricePoint.close).getD i 0)) ∧
    (∀ i : ℕ, i + 1 < pts.length →
      (returnsPipeline rf name cash0 pts).getD i 0 =
        ((valuations (simulate rf name cash0 pts) pts).getD (i + 1) 0 -
          (valuations (simulate rf name cash0 pts) pts).getD i 0) /
        (valuations (simulate rf name cash0 pts) pts).getD i 0) ∧
    (pts.length < 2 → returnsPipeline rf name cash0 pts = []) := by
  have hv : (valuations (simulate rf name cash0 pts) pts).length = pts.length :=
    length_valuations _ _
  have hlen : (returnsPipeline rf name cash0 pts).length = pts.length - 1 := by
    rw [returnsPipeline, returnsOf, List.length_zipWith, List.length_tail, hv]
    omega
  refine ⟨hlen, ?_, ?_, ?_⟩
  · intro i hi
    have hm : valuations (simulate rf name cash0 pts) pts =
        (pts.map PricePoint.close).map
          (fun c => portfolioValue (simulate rf name cash0 pts) c) := by
      simp [valuations, List.map_map, Function.comp]
    rw [hm, map_getD (fun c => portfolioValue (simulate rf name cash0 pts) c) 0]
    simpa using hi
  · intro i hi
    rw [returnsPipeline, returnsOf,
      zipWith_getD (fun a b => (b - a) / a) 0 0 _ _ i (by omega)
        (by rw [List.length_tail, hv]; omega),
      tail_getD]
  · intro hlt
    have : (returnsPipeline rf name cash0 pts).length = 0 := by omega
    exact List.length_eq_zero.mp this

/-- C5 witness: the return-series theorem applied at index 0 of a concrete
two-point series, where the single return evaluates to 1/4. -/
theorem returns_final_ledger_wit :
    (returnsPipeline (1/2) "T" 1000 c5pts).getD 0 0 =
      ((valuations (simulate (1/2) "T" 1000 c5pts) c5pts).getD 1 0 -
        (valuations (simulate (1/2) "T" 1000 c5pts) c5pts).getD 0 0) /
      (valuations (simulate (1/2) "T" 1000 c5pts) c5pts).getD 0 0 ∧
    (returnsPipeline (1/2) "T" 1000 c5pts).getD 0 0 = 1/4 := by
  constructor
  · exact (returns_final_ledger_spec (1/2) "T" 1000 c5pts).2.2.1 0 (by norm_num [c5pts])
  · simp [returnsPipeline, returnsOf, valuations, c5pts, simulate, initState, simStep,
      execute, getPos, setPos, portfolioValue, List.zipWith]
    norm_num

/-- C6 counterexample: with fewer than 2 trades the four trade metrics are not
all 0: pnl and the average trade return do evaluate to 0, but the win-rate
expression compares the plain list [0] against 0, which fails in the source
(TypeError), so the win rate has no value at all. -/
theorem trade_metrics_short_crash_cex :
    winRate ([] : List Trade) = none ∧ winRate [⟨"a", 5, 100⟩] = none ∧
    pnlOf ([] : List Trade) = 0 ∧ avgTradeReturn ([] : List Trade) = 0 := by
  refine ⟨rfl, rfl, ?_, ?_⟩
  · simp [pnlOf, tradePnl, tradeReturns]
  · simp [avgTradeReturn, tradeReturns, mean]

/-- C6 amended: the trade metrics of the summary come from consecutive
trade-log entries: returns are (price (i+1) - price i) / price i, pnl entries
multiply each return by the quantity of the earlier trade, pnl is their sum,
the average trade return is the mean of the returns, and the win rate is the
count of positive pnl entries over their number; with fewer than 2 trades, pnl
and the average trade return are 0 via the literal [0] lists, but the win-rate
computation fails (the source compares the list [0] with 0, raising TypeError),
so no win rate and no summary are produced. -/
theorem trade_metrics_spec (ts : List Trade) :
    (1 < ts.length →
      (tradeReturns ts).length = ts.length - 1 ∧
      (tradePnl ts).length = ts.length - 1 ∧
      (∀ i : ℕ, i + 1 < ts.length →
        (tradeReturns ts).getD i 0 =
          ((ts.map Trade.price).getD (i + 1) 0 - (ts.map Trade.price).getD i 0) /
            (ts.map Trade.price).getD i 0 ∧
        (tradePnl ts).getD i 0 =
          (tradeReturns ts).getD i 0 * (ts.map Trade.quantity).getD i 0) ∧
      pnlOf ts = (tradePnl ts).sum ∧
      avgTradeReturn ts = mean (tradeReturns ts) ∧
      winRate ts =
        some (((tradePnl ts).countP (fun x => decide (0 < x)) : ℚ) /
          ((ts.length - 1 : ℕ) : ℚ))) ∧
    (ts.length < 2 →
      pnlOf ts = 0 ∧ avgTradeReturn ts = 0 ∧ winRate ts = none ∧ (tradePnl ts).sum = 0) := by
  refine ⟨?_, ?_⟩
  · intro h
    have hrl : (tradeReturns ts).length = ts.length - 1 := by
      rw [tradeReturns, if_pos h, List.length_zipWith, List.length_tail]
      omega
    have hpl : (tradePnl ts).length = ts.length - 1 := by
      rw [tradePnl, if_pos h, List.length_zipWith, hrl]
      omega
    refine ⟨hrl, hpl, ?_, rfl, ?_, ?_⟩
    · intro i hi
      constructor
      · rw [tradeReturns, if_pos h,
          zipWith_getD (fun a b => (b.price - a.price) / a.price) tr0 tr0 _ _ i (by omega)
            (by rw [List.length_tail]; omega),
          tail_getD, map_getD Trade.price tr0 ts i (by omega),
          map_getD Trade.price tr0 ts (i + 1) (by omega)]
      · rw [tradePnl, if_pos h,
          zipWith_getD (fun r t => r * t.quantity) 0 tr0 _ _ i (by omega) (by omega),
          map_getD Trade.quantity tr0 ts i (by omega)]
    · rw [avgTradeReturn, if_pos (by omega : 0 < (tradeReturns ts).length)]
    · rw [winRate, if_pos h, if_pos (by omega : 0 < (tradePnl ts).length), hpl]
  · intro h
    have h1 : ¬ 1 < ts.length := by omega
    have hr : tradeReturns ts = [0] := by rw [tradeReturns, if_neg h1]
    have hp : tradePnl ts = [0] := by rw [tradePnl, if_neg h1]
    refine ⟨?_, ?_, ?_, ?_⟩
    · rw [pnlOf, hp]; simp
    · rw [avgTradeReturn, hr]; simp [mean]
    · rw [winRate, if_neg h1]
    · rw [hp]; simp

/-- C6 witness: the trade-metrics theorem applied to a concrete three-trade
log (pnl 1/5, average return 0, win rate 1/2) and to the empty log, where the
win rate has no value. -/
theorem trade_metrics_wit :
    (tradeReturns c6ts).getD 0 0 =
      ((c6ts.map Trade.price).getD 1 0 - (c6ts.map Trade.price).getD 0 0) /
        (c6ts.map Trade.price).getD 0 0 ∧
    pnlOf c6ts = 1/5 ∧ avgTradeReturn c6ts = 0 ∧ winRate c6ts = some (1/2) ∧
    pnlOf ([] : List Trade) = 0 ∧ winRate ([] : List Trade) = none := by
  have H := trade_metrics_spec c6ts
  have HE := trade_metrics_spec ([] : List Trade)
  refine ⟨((H.1 (by norm_num [c6ts])).2.2.1 0 (by norm_num [c6ts])).1, ?_, ?_, ?_,
    (HE.2 (by norm_num)).1, (HE.2 (by norm_num)).2.2.1⟩
  · simp [c6ts, pnlOf, tradePnl, tradeReturns, List.zipWith]
    norm_num
  · simp [c6ts, avgTradeReturn, tradeReturns, List.zipWith, mean]
    norm_num
  · simp [c6ts, winRate, tradePnl, tradeReturns, List.zipWith]
    norm_num

/-- C7: on a one-point series the performance computation fails without
reporting InsufficientData: the trade log is empty, so the win-rate line has no
value (the source raises TypeError comparing the plain list [0] with 0) and no
summary is ever returned; the scalar metrics computed before that line are the
misleading zeros, and an empty series fails earlier still (IndexError at
data.iloc[0]), likewise with no InsufficientData report. Evaluated at the
default configuration, cash 1000000 and risk fraction 1/50. -/
theorem short_series_no_summary :
    performanceSummary c7st c7pts = none ∧
    c7st.trades = [] ∧
    winRate c7st.trades = none ∧
    totalReturn c7st c7pts = 0 ∧
    annualReturn c7st c7pts = 0 ∧
    returnsOf c7st c7pts = [] ∧
    performanceSummary (initState 1000000) [] = none := by
  have hst : c7st = ⟨1000000, [], []⟩ := by
    simp [c7st, c7pts, simulate, initState, simStep]
  have hw : winRate c7st.trades = none := by
    rw [hst]
    rfl
  have htr : totalReturn c7st c7pts = 0 := by
    simp [totalReturn, portfolioValue, hst, c7pts]
  refine ⟨?_, by rw [hst], hw, htr, ?_, ?_, ?_⟩
  · rw [performanceSummary, if_neg (by simp [c7pts]), hw]
    rfl
  · show annualReturn c7st c7pts = 0
    rw [annualReturn, htr]
    norm_num [c7pts, Real.one_rpow]
  · simp [returnsOf, valuations, c7pts]
  · simp [performanceSummary]

/-- C8: in every summary the performance computation produces, the Sharpe ratio
equals (annual_return - 0.02) / volatility whenever volatility is positive, and
is the explicit fallback 0 whenever volatility is zero; no division by zero
occurs in either case. -/
theorem sharpe_policy (st : SimState) (pts : List PricePoint) (s : Summary)
    (h : performanceSummary st pts = some s) :
    (0 < s.volatility → s.sharpe = (s.annual_return - 2 / 100) / s.volatility) ∧
    (s.volatility = 0 → s.sharpe = 0) := by
  rw [performanceSummary] at h
  by_cases he : pts.isEmpty
  · rw [if_pos he] at h
    exact absurd h (by simp)
  · rw [if_neg he] at h
    cases hw : winRate st.trades with
    | none =>
      rw [hw] at h
      exact absurd h (by simp)
    | some w =>
      rw [hw] at h
      have h2 : some (mkSummary st pts w) = some s := h
      have hs : s = mkSummary st pts w := (Option.some_inj.mp h2).symm
      subst hs
      constructor
      · intro hv
        show sharpe st pts = (annualReturn st pts - 2 / 100) / volatility st pts
        rw [sharpe, if_pos]
        exact hv
      · intro hv
        have hv2 : volatility st pts = 0 := hv
        show sharpe st pts = 0
        simp [sharpe, hv2]

/-- C8 witness: the Sharpe theorem applied to a produced summary with positive
volatility (two trades, return-series variance 9/64) and to a produced summary
with zero volatility (two trades, constant valuations). -/
theorem sharpe_policy_wit :
    sharpe c8st c8pts = (annualReturn c8st c8pts - 2 / 100) / volatility c8st c8pts ∧
    sharpe c8zst c8zpts = 0 := by
  have htr8 : c8st.trades = [⟨"a", 5, 100⟩, ⟨"b", 5/2, 100⟩] := by
    simp [c8st, c8pts, simulate, initState, simStep, execute, getPos, setPos]
    norm_num
  have hw8 : winRate c8st.trades = some 0 := by
    rw [htr8]
    simp [winRate, tradePnl, tradeReturns, List.zipWith]
  have h8 : performanceSummary c8st c8pts = some (mkSummary c8st c8pts 0) := by
    rw [performanceSummary, if_neg (by simp [c8pts]), hw8]
    rfl
  have htrz : c8zst.trades = [⟨"a", 5, 100⟩, ⟨"b", 5/2, 100⟩] := by
    simp [c8zst, c8zpts, simulate, initState, simStep, execute, getPos, setPos]
    norm_num
  have hwz : winRate c8zst.trades = some 0 := by
    rw [htrz]
    simp [winRate, tradePnl, tradeReturns, List.zipWith]
  have h8z : performanceSummary c8zst c8zpts = some (mkSummary c8zst c8zpts 0) := by
    rw [performanceSummary, if_neg (by simp [c8zpts]), hwz]
    rfl
  constructor
  · have hv : 0 < volatility c8st c8pts := by
      have hvar : variance (returnsOf c8st c8pts) = 9/64 := by
        simp [c8st, c8pts, simulate, initState, simStep, execute, getPos, setPos,
          returnsOf, valuations, portfolioValue, List.zipWith, variance, mean]
        norm_num
      rw [volatility, hvar]
      have h1 : (0:ℝ) < Real.sqrt ((9/64 : ℚ) : ℝ) := Real.sqrt_pos.mpr (by norm_num)
      have h2 : (0:ℝ) < Real.sqrt 252 := Real.sqrt_pos.mpr (by norm_num)
      exact mul_pos h1 h2
    exact (sharpe_policy c8st c8pts _ h8).1 hv
  · have hvz : volatility c8zst c8zpts = 0 := by
      have hret : returnsOf c8zst c8zpts = [0] := by
        simp [c8zst, c8zpts, simulate, initState, simStep, execute, getPos, setPos,
          returnsOf, valuations, portfolioValue, List.zipWith]
      rw [volatility, hret]
      simp [variance, mean]
    exact (sharpe_policy c8zst c8zpts _ h8z).2 hvz

theorem sim_fold_inv (rf : ℚ) (name : String) (hrf0 : 0 < rf) (hrf1 : rf ≤ 1) :
    ∀ (pts : List PricePoint) (st : SimState),
      (∀ p ∈ pts, p.key ≠ name) → (∀ p ∈ pts, 0 < p.close) →
      getPos st.positions name = 0 → 0 ≤ st.cash →
      getPos (List.foldl (simStep rf name) st pts).positions name = 0 ∧
      0 ≤ (List.foldl (simStep rf name) st pts).cash ∧
      (List.foldl (simStep rf name) st pts).cash =
        st.cash * (1 - rf) ^ (pts.countP (fun p => decide (p.signal = 1))) ∧
      (List.foldl (simStep rf name) st pts).trades.length =
        st.trades.length + pts.countP (fun p => decide (p.signal = 1)) ∧
      (∀ t ∈ (List.foldl (simStep rf name) st pts).trades, t ∈ st.trades ∨ 0 ≤ t.quantity) ∧
      (∀ k, getPos st.positions k ≤ getPos (List.foldl (simStep rf name) st pts).positions k) := by
  intro pts
  induction pts with
  | nil =>
    intro st _ _ hname hcash
    refine ⟨hname, hcash, by simp, by simp, fun t ht => Or.inl ht, fun k => le_refl _⟩
  | cons p rest ih =>
    intro st hk hcl hname hcash
    have hkp : p.key ≠ name := hk p (List.mem_cons_self p rest)
    have hclp : 0 < p.close := hcl p (List.mem_cons_self p rest)
    have hkr : ∀ x ∈ rest, x.key ≠ name := fun x hx => hk x (List.mem_cons_of_mem p hx)
    have hclr : ∀ x ∈ rest, 0 < x.close := fun x hx => hcl x (List.mem_cons_of_mem p hx)
    by_cases h1 : p.signal = 1
    · have hstep : simStep rf name st p =
          execute st p.key (st.cash * rf / p.close) p.close := by
        rw [simStep, if_pos h1]
      have hq : 0 ≤ st.cash * rf / p.close :=
        div_nonneg (mul_nonneg hcash hrf0.le) hclp.le
      have hc1 : (execute st p.key (st.cash * rf / p.close) p.close).cash =
          st.cash * (1 - rf) := by
        show st.cash - st.cash * rf / p.close * p.close = st.cash * (1 - rf)
        rw [div_mul_cancel₀ _ hclp.ne.symm]
        ring
      have hc1nn : 0 ≤ (execute st p.key (st.cash * rf / p.close) p.close).cash := by
        rw [hc1]
        exact mul_nonneg hcash (by linarith)
      have hn1 : getPos (execute st p.key (st.cash * rf / p.close) p.close).positions name
          = 0 := by
        show getPos (setPos st.positions p.key _) name = 0
        rw [getPos_setPos_ne _ _ _ _ hkp]
        exact hname
      obtain ⟨ihn, ihc, ihcf, ihl, ihm, ihp⟩ :=
        ih (execute st p.key (st.cash * rf / p.close) p.close) hkr hclr hn1 hc1nn
      rw [List.foldl_cons, hstep]
      have hcnt : (p :: rest).countP (fun x => decide (x.signal = 1)) =
          rest.countP (fun x => decide (x.signal = 1)) + 1 := by
        simp [List.countP_cons, h1]
      refine ⟨ihn, ihc, ?_, ?_, ?_, ?_⟩
      · rw [ihcf, hc1, hcnt, pow_succ]
        ring
      · rw [ihl, hcnt]
        simp only [execute, List.length_append, List.length_cons, List.length_nil]
        omega
      · intro t ht
        rcases ihm t ht with hmem | hnn
        · rcases List.mem_append.mp hmem with hmem2 | hone
          · exact Or.inl hmem2
          · right
            have : t = ⟨p.key, st.cash * rf / p.close, p.close⟩ := by simpa using hone
            rw [this]
            exact hq
        · exact Or.inr hnn
      · intro k
        refine le_trans ?_ (ihp k)
        show getPos st.positions k ≤ getPos (setPos st.positions p.key _) k
        by_cases hkk : p.key = k
        · subst hkk
          rw [getPos_setPos_self]
          linarith
        · rw [getPos_setPos_ne _ _ _ _ hkk]
    · have hstep : simStep rf name st p = st := by
        rw [simStep, if_neg h1]
        by_cases h2 : p.signal = -1
        · rw [if_pos h2, if_neg]
          rw [hname]
          exact lt_irrefl 0
        · rw [if_neg h2]
      have hcnt : (p :: rest).countP (fun x => decide (x.signal = 1)) =
          rest.countP (fun x => decide (x.signal = 1)) := by
        simp [List.countP_cons, h1]
      rw [List.foldl_cons, hstep, hcnt]
      exact ih st hkr hclr hname hcash

/-- C10: when every row key differs from the series-level name (the intended
usage: rows keyed by date, name a ticker), the sell branch never executes
because buys record positions under row keys while the sell lookup uses the
name, which stays absent: the trade log holds exactly one record per buy
signal, every logged quantity is nonnegative, no position entry ever decreases
along the pass, and for risk fraction in (0, 1], positive closes and positive
initial cash the final cash is cash0 * (1 - rf) ^ (number of buy signals) and
cash is nonnegative after every prefix of the pass. -/
theorem key_mismatch_invariants (rf : ℚ) (name : String) (cash0 : ℚ)
    (pts : List PricePoint)
    (hk : ∀ p ∈ pts, p.key ≠ name) (hrf0 : 0 < rf) (hrf1 : rf ≤ 1)
    (hcl : ∀ p ∈ pts, 0 < p.close) (hc0 : 0 < cash0) :
    (simulate rf name cash0 pts).trades.length =
      pts.countP (fun p => decide (p.signal = 1)) ∧
    (∀ t ∈ (simulate rf name cash0 pts).trades, 0 ≤ t.quantity) ∧
    (∀ k : String, ∀ i j : ℕ, i ≤ j →
      getPos (simulate rf name cash0 (pts.take i)).positions k ≤
      getPos (simulate rf name cash0 (pts.take j)).positions k) ∧
    (simulate rf name cash0 pts).cash =
      cash0 * (1 - rf) ^ (pts.countP (fun p => decide (p.signal = 1))) ∧
    (∀ i : ℕ, 0 ≤ (simulate rf name cash0 (pts.take i)).cash) := by
  have base : ∀ l : List PricePoint, (∀ p ∈ l, p.key ≠ name) → (∀ p ∈ l, 0 < p.close) →
      getPos (List.foldl (simStep rf name) (initState cash0) l).positions name = 0 ∧
      0 ≤ (List.foldl (simStep rf name) (initState cash0) l).cash ∧
      (List.foldl (simStep rf name) (initState cash0) l).cash =
        cash0 * (1 - rf) ^ (l.countP (fun p => decide (p.signal = 1))) ∧
      (List.foldl (simStep rf name) (initState cash0) l).trades.length =
        l.countP (fun p => decide (p.signal = 1)) ∧
      (∀ t ∈ (List.foldl (simStep rf name) (initState cash0) l).trades,
        t ∈ ([] : List Trade) ∨ 0 ≤ t.quantity) ∧
      (∀ k, getPos (initState cash0).positions k ≤
        getPos (List.foldl (simStep rf name) (initState cash0) l).positions k) := by
    intro l hkl hcll
    have h := sim_fold_inv rf name hrf0 hrf1 l (initState cash0) hkl hcll rfl hc0.le
    simpa [initState] using h
  have hki : ∀ i : ℕ, ∀ p ∈ pts.take i, p.key ≠ name :=
    fun i p hp => hk p (List.take_subset i pts hp)
  have hcli : ∀ i : ℕ, ∀ p ∈ pts.take i, 0 < p.close :=
    fun i p hp => hcl p (List.take_subset i pts hp)
  refine ⟨(base pts hk hcl).2.2.2.1, ?_, ?_, (base pts hk hcl).2.2.1, ?_⟩
  · intro t ht
    rcases (base pts hk hcl).2.2.2.2.1 t ht with hf | hnn
    · exact absurd hf (List.not_mem_nil t)
    · exact hnn
  · intro k i j hij
    have hseg : pts.take j = pts.take i ++ (pts.take j).drop i := by
      conv_lhs => rw [← List.take_append_drop i (pts.take j)]
      rw [List.take_take, Nat.min_eq_left hij]
    have hsub : ∀ p ∈ (pts.take j).drop i, p ∈ pts :=
      fun p hp => List.take_subset j pts (List.drop_subset i (pts.take j) hp)
    have hmono := (sim_fold_inv rf name hrf0 hrf1 ((pts.take j).drop i)
        (simulate rf name cash0 (pts.take i))
        (fun p hp => hk p (hsub p hp)) (fun p hp => hcl p (hsub p hp))
        ((base (pts.take i) (hki i) (hcli i)).1)
        ((base (pts.take i) (hki i) (hcli i)).2.1)).2.2.2.2.2 k
    calc getPos (simulate rf name cash0 (pts.take i)).positions k
        ≤ getPos (List.foldl (simStep rf name)
            (simulate rf name cash0 (pts.take i)) ((pts.take j).drop i)).positions k := hmono
      _ = getPos (simulate rf name cash0 (pts.take j)).positions k := by
          conv_rhs => rw [simulate, hseg, List.foldl_append]
          rfl
  · intro i
    exact (base (pts.take i) (hki i) (hcli i)).2.1

/-- C10 witness: the invariants applied to a concrete date-keyed buy-sell-buy
series named T: two trades (one per buy), cash 1000 * (1/2)^2 after the pass,
nonnegative cash after the two-step prefix, and a non-decreasing position. -/
theorem key_mismatch_invariants_wit :
    (simulate (1/2) "T" 1000 c10pts).trades.length =
      c10pts.countP (fun p => decide (p.signal = 1)) ∧
    (simulate (1/2) "T" 1000 c10pts).cash =
      1000 * (1 - (1/2 : ℚ)) ^ (c10pts.countP (fun p => decide (p.signal = 1))) ∧
    0 ≤ (simulate (1/2) "T" 1000 (c10pts.take 2)).cash ∧
    getPos (simulate (1/2) "T" 1000 (c10pts.take 1)).positions "a" ≤
      getPos (simulate (1/2) "T" 1000 (c10pts.take 3)).positions "a" := by
  have H := key_mismatch_invariants (1/2) "T" 1000 c10pts
    (by intro p hp; fin_cases hp <;> simp)
    (by norm_num) (by norm_num)
    (by intro p hp; fin_cases hp <;> norm_num)
    (by norm_num)
  exact ⟨H.1, H.2.2.2.1, H.2.2.2.2 2, H.2.2.1 "a" 1 3 (by norm_num)⟩

end Backtest
